import Mathlib

/-!
Verification of the list-item handler of `hast-util-to-mdast`
(`src/lib/handlers/li.js`).

The hast tree is shallowly embedded: an element is a tag name, a property
map (association list of attribute name / value) and an ordered list of
children; a text node holds a string.  JavaScript property access and
truthiness are modelled explicitly; the possible `TypeError` thrown by
`extractLeadingCheckbox` (reading `.type` of `undefined` when the removed
checkbox was the sole child) is modelled by returning `none` from the
`Option`-valued embedding.  The external `phrasing` classifier from
`hast-util-phrasing` is an external capability and is passed as an explicit
boolean-function parameter, as the spec prescribes.
-/

namespace HastLi

/-- A hast property value: string, boolean or number (the cases the handler
can observe). -/
inductive PropVal where
  | str (s : String)
  | bool (b : Bool)
  | num (n : Int)
deriving DecidableEq, Repr

/-- The `properties` object of an element, as an association list. -/
abbrev Properties := List (String × PropVal)

/-- A hast node: `element` with tag name, properties and children, or
`text` with a string value (the spec's data model for this handler). -/
inductive Node where
  | element (tagName : String) (properties : Properties) (children : List Node)
  | text (value : String)
deriving Repr

/-- JavaScript property lookup `obj.key` on a property map: first binding
wins, absent keys read as `undefined` (here `none`). -/
def lookupProp : Properties → String → Option PropVal
  | [], _ => none
  | (k, v) :: rest, key => if k == key then some v else lookupProp rest key

/-- JavaScript truthiness `Boolean(v)` of a property value. -/
def PropVal.truthy : PropVal → Bool
  | .str s => !(s == "")
  | .bool b => b
  | .num n => !(n == 0)

/-- The children list of a node (`node.children`; a text node has none). -/
def childrenOf : Node → List Node
  | .element _ _ cs => cs
  | .text _ => []

/-- The tag name of a node (empty for text, which has no `tagName`). -/
def tagOf : Node → String
  | .element t _ _ => t
  | .text _ => ""

/-- The test on `candidate` at `li.js:93-99`: an element tagged `input`
whose `type` property is the string `checkbox` or `radio`. -/
def isCheckboxInput (n : Node) : Bool :=
  match n with
  | .element t P _ =>
    t == "input" &&
      (match lookupProp P "type" with
       | some (.str s) => s == "checkbox" || s == "radio"
       | _ => false)
  | .text _ => false

/-- `Boolean(candidate.properties.checked)` (`li.js:100`). -/
def checkedOf (n : Node) : Bool :=
  match n with
  | .element _ P _ =>
    match lookupProp P "checked" with
    | some v => v.truthy
    | none => false
  | .text _ => false

/-- The descent test at `li.js:126-133`: an element that is a `p` or that
the external `phrasing` classifier accepts. -/
def isDescendCandidate (phr : Node → Bool) (n : Node) : Bool :=
  match n with
  | .element t _ _ => t == "p" || phr n
  | .text _ => false

/-- JavaScript whitespace for `String.prototype.trimStart` (the common
members of the WhiteSpace / LineTerminator classes; exotic Unicode space
separators are not used by this handler's inputs). -/
def jsWhitespace (c : Char) : Bool :=
  c == ' ' || c == '\t' || c == '\n' || c == '\r' ||
    c == '\x0b' || c == '\x0c' || c == '\u00A0' || c == '\uFEFF'

/-- `value.trimStart()` (`li.js:110`). -/
def trimStart (s : String) : String :=
  ⟨s.data.dropWhile jsWhitespace⟩

/-- The innermost step of the rebuild loop (`li.js:105-115`) applied to
`children = parent.children.slice(1)` while `clone === node`: reading
`children[0].type` on an empty list throws (`none`); a leading text child
has its leading whitespace trimmed and is dropped when it becomes empty. -/
def dropCheckboxTail : List Node → Option (List Node)
  | [] => none
  | .text v :: tail =>
    some (if trimStart v == "" then tail else .text (trimStart v) :: tail)
  | c :: tail => some (c :: tail)

/-- Outcome of the search-and-rebuild loop of `extractLeadingCheckbox`:
no qualifying checkbox found, a thrown `TypeError`, or a found checkbox
with the rebuilt clone. -/
inductive ExtractResult where
  | notFound
  | crash
  | found (checked : Bool) (clone : Node)
deriving Repr

/-- The `while` loop of `extractLeadingCheckbox` (`li.js:90-139`), written
as first-child recursion: examine the first child; a qualifying checkbox is
removed and the spine rebuilt bottom-up; a `p`/phrasing element is descended
into, the rebuilt inner clone replacing it as first child; anything else
stops the search. -/
def goNode (phr : Node → Bool) : Node → ExtractResult
  | .text _ => .notFound
  | .element _ _ [] => .notFound
  | .element t P (c :: rest) =>
    if isCheckboxInput c then
      match dropCheckboxTail rest with
      | none => .crash
      | some rest' => .found (checkedOf c) (.element t P rest')
    else if isDescendCandidate phr c then
      match goNode phr c with
      | .found b cl => .found b (.element t P (cl :: rest))
      | r => r
    else .notFound

/-- `extractLeadingCheckbox` (`li.js:82-142`): `some (checked, clone)` on
normal return, `none` when the JavaScript code throws. -/
def extractLeadingCheckbox (phr : Node → Bool) (node : Node) :
    Option (Option Bool × Node) :=
  match goNode phr node with
  | .notFound => some (none, node)
  | .crash => none
  | .found b clone => some (some b, clone)

mutual

/-- `spreadout` (`li.js:53-72`): scan the node's children in order with
`seenFlow = false`; text nodes contribute nothing. -/
def spreadout (phr : Node → Bool) : Node → Bool
  | .text _ => false
  | .element _ _ cs => spreadoutGo phr cs false

/-- The scan loop of `spreadout` over a children list with the `seenFlow`
accumulator: text and phrasing-classified element children are skipped; a
non-phrasing element that is a `p`, or follows an earlier flow child, or
whose own subtree spreads out, answers `true`; otherwise the scan continues
with `seenFlow` set. -/
def spreadoutGo (phr : Node → Bool) : List Node → Bool → Bool
  | [], _ => false
  | c :: rest, seenFlow =>
    match c with
    | .element t _ _ =>
      if phr c then spreadoutGo phr rest seenFlow
      else if t == "p" || seenFlow || spreadout phr c then true
      else spreadoutGo phr rest true
    | .text _ => spreadoutGo phr rest seenFlow

end

/-- The search half of the `while` loop alone (`li.js:90-139` without the
rebuild): the qualifying checkbox the strict first-child descent through
`p`/phrasing wrappers reaches, if any.  Used to characterise the no-find
case of `extractLeadingCheckbox`. -/
def spineTarget (phr : Node → Bool) : Node → Option Node
  | .text _ => none
  | .element _ _ [] => none
  | .element _ _ (c :: _) =>
    if isCheckboxInput c then some c
    else if isDescendCandidate phr c then spineTarget phr c
    else none

mutual

/-- Whether any element anywhere in the tree is tagged `input`. -/
def hasInputTag : Node → Bool
  | .text _ => false
  | .element t _ cs => t == "input" || hasInputTagList cs

/-- `hasInputTag` over a children list. -/
def hasInputTagList : List Node → Bool
  | [] => false
  | c :: rest => hasInputTag c || hasInputTagList rest

end

/-- One level of the first-child spine above the checkbox's parent: the
wrapper element's tag name, properties, and its children after the first
(the first child is the next spine level). -/
structure Wrapper where
  tagName : String
  properties : Properties
  siblings : List Node
deriving Repr

/-- Rebuild a node from its spine decomposition: each wrapper contributes
an element whose first child is the next level and whose remaining children
are the wrapper's `siblings`, reused as given. -/
def wrap : List Wrapper → Node → Node
  | [], inner => inner
  | w :: ws, inner => .element w.tagName w.properties (wrap ws inner :: w.siblings)

/-- A spine decomposition the search actually traverses: at each level the
first child is not itself a qualifying checkbox and passes the descent
test. -/
def wrapOK (phr : Node → Bool) : List Wrapper → Node → Bool
  | [], _ => true
  | _ :: ws, inner =>
    !isCheckboxInput (wrap ws inner) &&
      isDescendCandidate phr (wrap ws inner) &&
      wrapOK phr ws inner

/-- A direct child that `spreadout` treats as flow: an element the external
classifier does not mark as phrasing. -/
def isFlowElem (phr : Node → Bool) (n : Node) : Bool :=
  match n with
  | .element _ _ _ => !phr n
  | .text _ => false

/-- A child that is phrasing content: a text node or a phrasing-classified
element. -/
def isPhrasingContent (phr : Node → Bool) (n : Node) : Bool :=
  match n with
  | .element _ _ _ => phr n
  | .text _ => true

/-- Number of direct flow (non-phrasing element) children. -/
def flowCount (phr : Node → Bool) (l : List Node) : Nat :=
  (l.filter (isFlowElem phr)).length

/-- The produced mdast node shape `{type, spread, checked, children}`,
generic in the external converted-block-node type. -/
structure ListItem (M : Type) where
  type : String
  spread : Bool
  checked : Option Bool
  children : List M
deriving Repr

/-- The `li` handler (`li.js:19-29`).

Modelled from the spec: the `State` capabilities imported from
`../state.js` are not under `src/`.  Per the spec they are a
children-conversion capability (`state.toFlow(state.all(clone))`, an
ordered sequence of nodes to converted block nodes, here the explicit
parameter `convert` applied to the clone's children) and a provenance-patch
capability invoked for its side effect, here modelled as an event log of
`(source, target)` invocations returned alongside the result.  The
orchestration itself is the source's: extract the leading checkbox,
classify spread on the clone, convert the clone's children, assemble the
result, patch it once, return it; a throw in extraction propagates
(`none`). -/
def li (phr : Node → Bool) {M : Type} (convert : List Node → List M)
    (node : Node) : Option (ListItem M × List (Node × ListItem M)) :=
  match extractLeadingCheckbox phr node with
  | none => none
  | some (checked, clone) =>
    let spread := spreadout phr clone
    let children := convert (childrenOf clone)
    let result : ListItem M := ⟨"listItem", spread, checked, children⟩
    some (result, [(clone, result)])

/-- A sample phrasing classifier standing in for `hast-util-phrasing` in
concrete evaluations: inline tags are phrasing, text is phrasing. -/
def phrSample : Node → Bool := fun n =>
  match n with
  | .element t _ _ =>
    t == "span" || t == "strong" || t == "em" || t == "a" ||
      t == "input" || t == "img" || t == "code"
  | .text _ => true

/-- Sample checkbox input element without a `checked` attribute. -/
def cbPlain : Node := .element "input" [("type", .str "checkbox")] []

/-- Sample checkbox input element with `checked`. -/
def cbChecked : Node :=
  .element "input" [("type", .str "checkbox"), ("checked", .bool true)] []

lemma spreadoutGo_of_seenFlow (phr : Node → Bool) :
    ∀ l : List Node, (∃ c ∈ l, isFlowElem phr c = true) →
      spreadoutGo phr l true = true := by
  intro l
  induction l with
  | nil => rintro ⟨c, hc, -⟩; cases hc
  | cons c rest ih =>
    rintro ⟨d, hd, hflow⟩
    cases c with
    | element t P ch =>
      by_cases hphr : phr (.element t P ch) = true
      · have hd' : d ∈ rest := by
          rcases List.mem_cons.mp hd with h | h
          · subst h; simp [isFlowElem, hphr] at hflow
          · exact h
        simp only [spreadoutGo, hphr, if_true]
        exact ih ⟨d, hd', hflow⟩
      · simp only [spreadoutGo, hphr, if_false, Bool.or_true, Bool.true_or,
          if_true, Bool.not_eq_true] at *
        simp [hphr]
    | text v =>
      have hd' : d ∈ rest := by
        rcases List.mem_cons.mp hd with h | h
        · subst h; simp [isFlowElem] at hflow
        · exact h
      simpa only [spreadoutGo] using ih ⟨d, hd', hflow⟩

lemma spreadoutGo_true_of_p_mem (phr : Node → Bool) :
    ∀ l : List Node,
      (∃ c ∈ l, isFlowElem phr c = true ∧ tagOf c = "p") →
      ∀ s, spreadoutGo phr l s = true := by
  intro l
  induction l with
  | nil => rintro ⟨c, hc, -⟩; cases hc
  | cons c rest ih =>
    rintro ⟨d, hd, hflow, hp⟩ s
    cases c with
    | element t P ch =>
      by_cases hphr : phr (.element t P ch) = true
      · have hd' : d ∈ rest := by
          rcases List.mem_cons.mp hd with h | h
          · subst h; simp [isFlowElem, hphr] at hflow
          · exact h
        simp only [spreadoutGo, hphr, if_true]
        exact ih ⟨d, hd', hflow, hp⟩ s
      · rcases List.mem_cons.mp hd with h | h
        · subst h
          simp only [tagOf] at hp
          subst hp
          simp [spreadoutGo, hphr]
        · simp only [spreadoutGo, hphr, Bool.not_eq_true, if_false]
          by_cases hcond :
              (t == "p" || s || spreadout phr (.element t P ch)) = true
          · simp [hphr, hcond]
          · simp only [Bool.not_eq_true] at hcond
            simp only [hphr, hcond, Bool.false_eq_true, if_false,
              Bool.not_eq_true]
            exact ih ⟨d, h, hflow, hp⟩ true
    | text v =>
      have hd' : d ∈ rest := by
        rcases List.mem_cons.mp hd with h | h
        · subst h; simp [isFlowElem] at hflow
        · exact h
      simpa only [spreadoutGo] using ih ⟨d, hd', hflow, hp⟩ s

lemma spreadoutGo_true_of_spread_child (phr : Node → Bool) :
    ∀ l : List Node,
      (∃ c ∈ l, isFlowElem phr c = true ∧ spreadout phr c = true) →
      ∀ s, spreadoutGo phr l s = true := by
  intro l
  induction l with
  | nil => rintro ⟨c, hc, -⟩; cases hc
  | cons c rest ih =>
    rintro ⟨d, hd, hflow, hsp⟩ s
    cases c with
    | element t P ch =>
      by_cases hphr : phr (.element t P ch) = true
      · have hd' : d ∈ rest := by
          rcases List.mem_cons.mp hd with h | h
          · subst h; simp [isFlowElem, hphr] at hflow
          · exact h
        simp only [spreadoutGo, hphr, if_true]
        exact ih ⟨d, hd', hflow, hsp⟩ s
      · rcases List.mem_cons.mp hd with h | h
        · subst h
          simp [spreadoutGo, hphr, hsp]
        · simp only [spreadoutGo, hphr, Bool.not_eq_true, if_false]
          by_cases hcond :
              (t == "p" || s || spreadout phr (.element t P ch)) = true
          · simp [hphr, hcond]
          · simp only [Bool.not_eq_true] at hcond
            simp only [hphr, hcond, Bool.false_eq_true, if_false,
              Bool.not_eq_true]
            exact ih ⟨d, h, hflow, hsp⟩ true
    | text v =>
      have hd' : d ∈ rest := by
        rcases List.mem_cons.mp hd with h | h
        · subst h; simp [isFlowElem] at hflow
        · exact h
      simpa only [spreadoutGo] using ih ⟨d, hd', hflow, hsp⟩ s

lemma spreadoutGo_true_of_two_flow (phr : Node → Bool) :
    ∀ l : List Node, 2 ≤ flowCount phr l →
      ∀ s, spreadoutGo phr l s = true := by
  intro l
  induction l with
  | nil => intro h; simp [flowCount] at h
  | cons c rest ih =>
    intro h2 s
    cases c with
    | element t P ch =>
      by_cases hphr : phr (.element t P ch) = true
      · have : flowCount phr rest = flowCount phr (.element t P ch :: rest) := by
          simp [flowCount, List.filter, isFlowElem, hphr]
        simp only [spreadoutGo, hphr, if_true]
        exact ih (this ▸ h2) s
      · by_cases hcond :
            (t == "p" || s || spreadout phr (.element t P ch)) = true
        · simp [spreadoutGo, hphr, hcond]
        · simp only [Bool.not_eq_true] at hcond
          simp only [spreadoutGo, hphr, hcond, Bool.false_eq_true, if_false,
            Bool.not_eq_true]
          have hcount : 1 ≤ flowCount phr rest := by
            have : flowCount phr (.element t P ch :: rest) =
                flowCount phr rest + 1 := by
              simp [flowCount, List.filter, isFlowElem, hphr]
            omega
          obtain ⟨d, hd, hdflow⟩ : ∃ d ∈ rest, isFlowElem phr d = true := by
            have hne : List.filter (isFlowElem phr) rest ≠ [] := by
              intro hnil
              rw [flowCount, hnil] at hcount
              simp at hcount
            obtain ⟨d, hd⟩ := List.exists_mem_of_ne_nil _ hne
            exact ⟨d, List.mem_of_mem_filter hd, List.of_mem_filter hd⟩
          exact spreadoutGo_of_seenFlow phr rest ⟨d, hd, hdflow⟩
    | text v =>
      have : flowCount phr rest = flowCount phr (.text v :: rest) := by
        simp [flowCount, List.filter, isFlowElem]
      simp only [spreadoutGo]
      exact ih (this ▸ h2) s

lemma spreadoutGo_false_of_all_phrasing (phr : Node → Bool) :
    ∀ l : List Node, (∀ c ∈ l, isPhrasingContent phr c = true) →
      ∀ s, spreadoutGo phr l s = false := by
  intro l
  induction l with
  | nil => intro _ s; simp [spreadoutGo]
  | cons c rest ih =>
    intro h s
    cases c with
    | element t P ch =>
      have hphr : phr (.element t P ch) = true := by
        simpa [isPhrasingContent] using h _ (List.mem_cons_self _ _)
      simp only [spreadoutGo, hphr, if_true]
      exact ih (fun d hd => h d (List.mem_cons_of_mem _ hd)) s
    | text v =>
      simp only [spreadoutGo]
      exact ih (fun d hd => h d (List.mem_cons_of_mem _ hd)) s

lemma goNode_wrap (phr : Node → Bool) :
    ∀ (ws : List Wrapper) (t : String) (P : Properties) (cb : Node)
      (rest : List Node),
      wrapOK phr ws (.element t P (cb :: rest)) = true →
      isCheckboxInput cb = true →
      goNode phr (wrap ws (.element t P (cb :: rest))) =
        (match dropCheckboxTail rest with
         | none => .crash
         | some rest' => .found (checkedOf cb) (wrap ws (.element t P rest'))) := by
  intro ws
  induction ws with
  | nil =>
    intro t P cb rest _ hcb
    cases hdt : dropCheckboxTail rest <;> simp [wrap, goNode, hcb, hdt]
  | cons w ws ih =>
    intro t P cb rest hok hcb
    obtain ⟨wt, wP, wsib⟩ := w
    simp only [wrapOK, Bool.and_eq_true, Bool.not_eq_true'] at hok
    obtain ⟨⟨hncb, hdc⟩, hok'⟩ := hok
    have := ih t P cb rest hok' hcb
    cases hdt : dropCheckboxTail rest with
    | none =>
      rw [hdt] at this
      simp [wrap, goNode, hncb, hdc, this]
    | some rest' =>
      rw [hdt] at this
      simp [wrap, goNode, hncb, hdc, this]

lemma goNode_notFound_iff (phr : Node → Bool) :
    ∀ n : Node, (goNode phr n = .notFound ↔ spineTarget phr n = none)
  | .text _ => by simp [goNode, spineTarget]
  | .element t P [] => by simp [goNode, spineTarget]
  | .element t P (c :: rest) => by
    by_cases hcb : isCheckboxInput c = true
    · cases hdt : dropCheckboxTail rest <;>
        simp [goNode, spineTarget, hcb, hdt]
    · rw [Bool.not_eq_true] at hcb
      by_cases hdc : isDescendCandidate phr c = true
      · have ih := goNode_notFound_iff phr c
        cases hg : goNode phr c with
        | notFound =>
          have : spineTarget phr c = none := ih.mp hg
          simp [goNode, spineTarget, hcb, hdc, hg, this]
        | crash =>
          have : ¬ spineTarget phr c = none := fun h => by
            rw [ih.mpr h] at hg; cases hg
          simp [goNode, spineTarget, hcb, hdc, hg, this]
        | found b cl =>
          have : ¬ spineTarget phr c = none := fun h => by
            rw [ih.mpr h] at hg; cases hg
          simp [goNode, spineTarget, hcb, hdc, hg, this]
      · rw [Bool.not_eq_true] at hdc
        simp [goNode, spineTarget, hcb, hdc]

lemma goNode_found_decomp (phr : Node → Bool) :
    ∀ n : Node, ∀ (b : Bool) (clone : Node), goNode phr n = .found b clone →
      ∃ (ws : List Wrapper) (t : String) (P : Properties) (cb : Node)
        (rest rest' : List Node),
        n = wrap ws (.element t P (cb :: rest)) ∧
        wrapOK phr ws (.element t P (cb :: rest)) = true ∧
        isCheckboxInput cb = true ∧
        b = checkedOf cb ∧
        dropCheckboxTail rest = some rest' ∧
        clone = wrap ws (.element t P rest')
  | .text _ => by intro b clone h; simp [goNode] at h
  | .element t P [] => by intro b clone h; simp [goNode] at h
  | .element t P (c :: rest) => by
    intro b clone h
    by_cases hcb : isCheckboxInput c = true
    · cases hdt : dropCheckboxTail rest with
      | none => simp [goNode, hcb, hdt] at h
      | some rest' =>
        simp only [goNode, hcb, if_true, hdt] at h
        cases h
        exact ⟨[], t, P, c, rest, rest', rfl, rfl, hcb, rfl, hdt, rfl⟩
    · rw [Bool.not_eq_true] at hcb
      by_cases hdc : isDescendCandidate phr c = true
      · cases hg : goNode phr c with
        | notFound => simp [goNode, hcb, hdc, hg] at h
        | crash => simp [goNode, hcb, hdc, hg] at h
        | found b' cl =>
          simp only [goNode, hcb, Bool.false_eq_true, if_false, hdc,
            if_true, hg] at h
          injection h with hb hclone
          subst hb
          subst hclone
          obtain ⟨ws, t', P', cb, r, r', hc, hok, hcb', hb, hdt, hcl⟩ :=
            goNode_found_decomp phr c b' cl hg
          refine ⟨⟨t, P, rest⟩ :: ws, t', P', cb, r, r', ?_, ?_, hcb', hb,
            hdt, ?_⟩
          · simp [wrap, ← hc]
          · simp only [wrapOK, Bool.and_eq_true, Bool.not_eq_true']
            exact ⟨⟨by rw [← hc]; exact hcb, by rw [← hc]; exact hdc⟩, hok⟩
          · simp [wrap, ← hcl]
      · rw [Bool.not_eq_true] at hdc
        simp [goNode, hcb, hdc] at h

lemma wrap_left_injective :
    ∀ (ws : List Wrapper) (X Y : Node), wrap ws X = wrap ws Y → X = Y := by
  intro ws
  induction ws with
  | nil => intro X Y h; exact h
  | cons w ws ih =>
    intro X Y h
    simp only [wrap, Node.element.injEq, List.cons.injEq] at h
    exact ih X Y h.2.2.1

lemma dropCheckboxTail_length {rest rest' : List Node} :
    dropCheckboxTail rest = some rest' → rest'.length ≤ rest.length := by
  cases rest with
  | nil => intro h; cases h
  | cons c tail =>
    cases c with
    | text v =>
      intro h
      simp only [dropCheckboxTail] at h
      cases h
      by_cases ht : (trimStart v == "") = true <;> simp [ht]
    | element t P ch =>
      intro h
      simp only [dropCheckboxTail] at h
      cases h
      simp

lemma hasInputTag_of_isCheckboxInput {c : Node} :
    isCheckboxInput c = true → hasInputTag c = true := by
  cases c with
  | text v => intro h; cases h
  | element t P ch =>
    intro h
    simp only [isCheckboxInput, Bool.and_eq_true] at h
    simp [hasInputTag, h.1]

lemma spineTarget_none_of_noInput (phr : Node → Bool) :
    ∀ n : Node, hasInputTag n = false → spineTarget phr n = none
  | .text _ => by intro _; simp [spineTarget]
  | .element t P [] => by intro _; simp [spineTarget]
  | .element t P (c :: rest) => by
    intro h
    simp only [hasInputTag, hasInputTagList, Bool.or_eq_false_iff] at h
    have hc : hasInputTag c = false := h.2.1
    have hcb : isCheckboxInput c = false := by
      rw [← Bool.not_eq_true]
      intro hx
      rw [hasInputTag_of_isCheckboxInput hx] at hc
      cases hc
    by_cases hdc : isDescendCandidate phr c = true
    · have := spineTarget_none_of_noInput phr c hc
      simp [spineTarget, hcb, hdc, this]
    · rw [Bool.not_eq_true] at hdc
      simp [spineTarget, hcb, hdc]

/-- C1: the spec claims `extract` is pure and total and never raises a
failure condition for every input element.  The code is not: when the found
checkbox is the sole child of its parent, `children.slice(1)` is empty and
`li.js:108` reads `children[0].type` on `undefined`, throwing a
`TypeError`.  The embedding evaluates the code on
`<li><input type="checkbox"></li>` to the thrown outcome (`none`). -/
theorem extract_crashes_on_sole_checkbox :
    extractLeadingCheckbox phrSample (.element "li" [] [cbPlain]) = none := rfl

/-- C2: the spec expects `extract` on
`<li><input type="checkbox" checked></li>` to return `checked = true` with
a childless clone; instead the code throws a `TypeError` on exactly this
shape (`children[0].type` with `children` empty, `li.js:108`).  The
embedding evaluates the code on that input to the thrown outcome
(`none`). -/
theorem extract_crashes_on_checked_sole_checkbox :
    extractLeadingCheckbox phrSample (.element "li" [] [cbChecked]) = none := rfl

/-- C3: when extraction removes a checkbox and the next sibling in the
innermost spine element is a text node, the clone's text node has its
leading whitespace trimmed, and is dropped entirely when the trimmed value
is empty — stated for an arbitrary spine (`wrap ws`), tag, properties,
qualifying checkbox, text value and following siblings; and in particular
`extract` on `<li><p><input type="checkbox"> text</p></li>` returns
`checked = false` and the clone `<li><p>text</p></li>`. -/
theorem extract_trims_text_after_checkbox :
    (∀ (phr : Node → Bool) (ws : List Wrapper) (t : String) (P : Properties)
       (cb : Node) (v : String) (rest : List Node),
       wrapOK phr ws (.element t P (cb :: .text v :: rest)) = true →
       isCheckboxInput cb = true →
       extractLeadingCheckbox phr
           (wrap ws (.element t P (cb :: .text v :: rest))) =
         some (some (checkedOf cb),
           wrap ws (.element t P
             (if trimStart v == "" then rest
              else .text (trimStart v) :: rest)))) ∧
    extractLeadingCheckbox phrSample
        (.element "li" [] [.element "p" [] [cbPlain, .text " text"]]) =
      some (some false, .element "li" [] [.element "p" [] [.text "text"]]) := by
  constructor
  · intro phr ws t P cb v rest hok hcb
    have h := goNode_wrap phr ws t P cb (.text v :: rest) hok hcb
    simp only [dropCheckboxTail] at h
    simp [extractLeadingCheckbox, h]
  · rfl

/-- Witness for C3: the general statement applied to the concrete spine
`<li><p><input type="checkbox" checked>  x</p></li>`. -/
theorem extract_trims_text_after_checkbox_witness :
    extractLeadingCheckbox phrSample
        (.element "li" [] [.element "p" [] [cbChecked, .text "  x"]]) =
      some (some true, .element "li" [] [.element "p" [] [.text "x"]]) :=
  extract_trims_text_after_checkbox.1 phrSample [⟨"li", [], []⟩] "p" []
    cbChecked "  x" [] rfl rfl

/-- C4: `checked = null` with the clone being the input itself (in the
value semantics of the embedding, the very same term, mirroring the
source's `clone` still referring to `node`) happens exactly when the strict
first-child spine descent finds no qualifying checkbox; moreover whenever a
normal return carries `checked = null`, the clone is the input. -/
theorem extract_none_iff_no_spine_target :
    ∀ (phr : Node → Bool) (n : Node),
      (extractLeadingCheckbox phr n = some (none, n) ↔
        spineTarget phr n = none) ∧
      (∀ (c : Option Bool) (clone : Node),
        extractLeadingCheckbox phr n = some (c, clone) → c = none →
          clone = n) := by
  intro phr n
  cases hg : goNode phr n with
  | notFound =>
    have hst := (goNode_notFound_iff phr n).mp hg
    refine ⟨⟨fun _ => hst, fun _ => by simp [extractLeadingCheckbox, hg]⟩,
      ?_⟩
    intro c clone h _
    simp only [extractLeadingCheckbox, hg, Option.some.injEq,
      Prod.mk.injEq] at h
    exact h.2.symm
  | crash =>
    have hst : ¬ spineTarget phr n = none := fun hst => by
      rw [(goNode_notFound_iff phr n).mpr hst] at hg; cases hg
    refine ⟨⟨fun h => ?_, fun h => absurd h hst⟩, ?_⟩
    · simp [extractLeadingCheckbox, hg] at h
    · intro c clone h
      simp [extractLeadingCheckbox, hg] at h
  | found b cl =>
    have hst : ¬ spineTarget phr n = none := fun hst => by
      rw [(goNode_notFound_iff phr n).mpr hst] at hg; cases hg
    refine ⟨⟨fun h => ?_, fun h => absurd h hst⟩, ?_⟩
    · simp [extractLeadingCheckbox, hg] at h
    · intro c clone h hc
      simp only [extractLeadingCheckbox, hg, Option.some.injEq,
        Prod.mk.injEq] at h
      rw [hc] at h
      cases h.1

/-- Witness for C4: the checkbox sits behind a leading text sibling, the
spine finds nothing, and `extract` returns `checked = null` with the input
itself as clone. -/
theorem extract_none_iff_no_spine_target_witness :
    extractLeadingCheckbox phrSample
        (.element "li" [] [.text "hi", cbPlain]) =
      some (none, .element "li" [] [.text "hi", cbPlain]) :=
  (extract_none_iff_no_spine_target phrSample
    (.element "li" [] [.text "hi", cbPlain])).1.mpr rfl

/-- C5 counterexample: idempotence fails.  On
`<li><input type="checkbox"><input type="checkbox">x</li>` the first
extraction succeeds, and extraction on the returned clone finds the second
checkbox, yielding `checked = false`, not `null` as the claim states. -/
theorem extract_second_find_counterexample :
    extractLeadingCheckbox phrSample
        (.element "li" [] [cbPlain, cbPlain, .text "x"]) =
      some (some false, .element "li" [] [cbPlain, .text "x"]) ∧
    extractLeadingCheckbox phrSample
        (.element "li" [] [cbPlain, .text "x"]) =
      some (some false, .element "li" [] [.text "x"]) ∧
    (some false : Option Bool) ≠ none :=
  ⟨rfl, rfl, by simp⟩

/-- C5 amended: if extraction succeeds and the returned clone contains no
element tagged `input` anywhere, then extraction on the clone yields
`checked = null` (with the clone returned unchanged). -/
theorem extract_idempotent_of_no_input_left :
    ∀ (phr : Node → Bool) (n : Node) (b : Bool) (clone : Node),
      extractLeadingCheckbox phr n = some (some b, clone) →
      hasInputTag clone = false →
      extractLeadingCheckbox phr clone = some (none, clone) := by
  intro phr n b clone _ hni
  have hst := spineTarget_none_of_noInput phr clone hni
  have hnf := (goNode_notFound_iff phr clone).mpr hst
  simp [extractLeadingCheckbox, hnf]

/-- Witness for the amended C5: one checkbox, so the clone has no `input`
left and the second extraction finds nothing. -/
theorem extract_idempotent_of_no_input_left_witness :
    extractLeadingCheckbox phrSample (.element "li" [] [.text "x"]) =
      some (none, .element "li" [] [.text "x"]) :=
  extract_idempotent_of_no_input_left phrSample
    (.element "li" [] [cbPlain, .text "x"]) false
    (.element "li" [] [.text "x"]) rfl rfl

/-- C6: `spreadout` answers `true` for an element with a direct
non-phrasing `p`-tagged element child, for an element with two or more
direct non-phrasing ("flow") element children even without a paragraph,
and for an element with a non-phrasing child whose own children contain a
nested non-phrasing paragraph or two nested flow children (the recursive
case).  The `p` child is required non-phrasing because the scan skips
phrasing-classified children first (`li.js:60`); under the real
`hast-util-phrasing` classifier a `p` is never phrasing. -/
theorem spreadout_true_conditions :
    ∀ (phr : Node → Bool) (t : String) (P : Properties) (cs : List Node),
      ((∃ c ∈ cs, isFlowElem phr c = true ∧ tagOf c = "p") →
        spreadout phr (.element t P cs) = true) ∧
      (2 ≤ flowCount phr cs → spreadout phr (.element t P cs) = true) ∧
      ((∃ c ∈ cs, isFlowElem phr c = true ∧
          ((∃ d ∈ childrenOf c, isFlowElem phr d = true ∧ tagOf d = "p") ∨
            2 ≤ flowCount phr (childrenOf c))) →
        spreadout phr (.element t P cs) = true) := by
  intro phr t P cs
  refine ⟨fun h => ?_, fun h => ?_, fun h => ?_⟩
  · exact spreadoutGo_true_of_p_mem phr cs h false
  · exact spreadoutGo_true_of_two_flow phr cs h false
  · obtain ⟨c, hc, hflow, hinner⟩ := h
    have hsp : spreadout phr c = true := by
      cases c with
      | text v => cases hflow
      | element t' P' ch =>
        show spreadoutGo phr ch false = true
        rcases hinner with h1 | h2
        · exact spreadoutGo_true_of_p_mem phr ch h1 false
        · exact spreadoutGo_true_of_two_flow phr ch h2 false
    exact spreadoutGo_true_of_spread_child phr cs ⟨c, hc, hflow, hsp⟩ false

/-- Witness for C6: a direct (non-phrasing) paragraph child makes the item
spread. -/
theorem spreadout_true_conditions_witness :
    spreadout phrSample (.element "li" [] [.element "p" [] []]) = true :=
  (spreadout_true_conditions phrSample "li" [] [.element "p" [] []]).1
    ⟨.element "p" [] [], List.mem_singleton.mpr rfl, rfl, rfl⟩

/-- C7: an element all of whose children are phrasing content (text nodes
or phrasing-classified elements) never spreads, regardless of those
children's own subtrees: the scan skips every child and answers `false`. -/
theorem spreadout_false_of_all_phrasing :
    ∀ (phr : Node → Bool) (t : String) (P : Properties) (cs : List Node),
      (∀ c ∈ cs, isPhrasingContent phr c = true) →
      spreadout phr (.element t P cs) = false := by
  intro phr t P cs h
  exact spreadoutGo_false_of_all_phrasing phr cs h false

/-- Witness for C7: text plus inline elements (whose subtrees are
non-trivial) stay tight. -/
theorem spreadout_false_of_all_phrasing_witness :
    spreadout phrSample
        (.element "li" []
          [.text "x", .element "em" [] [.element "p" [] []]]) = false :=
  spreadout_false_of_all_phrasing phrSample "li" []
    [.text "x", .element "em" [] [.element "p" [] []]]
    (by intro c hc
        rcases List.mem_cons.mp hc with h | h
        · subst h; rfl
        · rcases List.mem_cons.mp h with h' | h'
          · subst h'; rfl
          · cases h')

/-- C8: extraction never mutates the input (the embedding, like the
source's `slice`/spread rebuild, is a pure function of the input) and any
rewrite builds new nodes only along the modified first-child spine: a
successful extraction decomposes the input as `wrap ws` of the checkbox's
parent, and the clone is `wrap ws` of the rebuilt parent — each spine level
of the clone reuses the wrapper's tag name, properties and sibling list
(the same values as the input's, i.e. every untouched subtree is shared),
and the innermost level reuses the tail after the removed checkbox.  A
no-find return leaves the clone the input itself. -/
theorem extract_rewrites_only_spine :
    ∀ (phr : Node → Bool) (n : Node) (c : Option Bool) (clone : Node),
      extractLeadingCheckbox phr n = some (c, clone) →
      (c = none → clone = n) ∧
      (∀ b : Bool, c = some b →
        ∃ (ws : List Wrapper) (t : String) (P : Properties) (cb : Node)
          (rest rest' : List Node),
          n = wrap ws (.element t P (cb :: rest)) ∧
          isCheckboxInput cb = true ∧
          b = checkedOf cb ∧
          dropCheckboxTail rest = some rest' ∧
          clone = wrap ws (.element t P rest')) := by
  intro phr n c clone h
  cases hg : goNode phr n with
  | notFound =>
    simp only [extractLeadingCheckbox, hg, Option.some.injEq,
      Prod.mk.injEq] at h
    refine ⟨fun _ => h.2.symm, fun b hb => ?_⟩
    rw [← h.1] at hb
    cases hb
  | crash => simp [extractLeadingCheckbox, hg] at h
  | found b' cl =>
    simp only [extractLeadingCheckbox, hg, Option.some.injEq,
      Prod.mk.injEq] at h
    obtain ⟨hc, hcl⟩ := h
    refine ⟨fun hn => ?_, fun b hb => ?_⟩
    · rw [hn] at hc; cases hc
    · obtain ⟨ws, t, P, cb, rest, rest', h1, _, hcbx, hb', hdt, h2⟩ :=
        goNode_found_decomp phr n b' cl hg
      refine ⟨ws, t, P, cb, rest, rest', h1, hcbx, ?_, hdt, hcl ▸ h2⟩
      rw [hb] at hc
      injection hc.symm with hbb
      rw [hbb, hb']

/-- Witness for C8: concrete decomposition of a successful extraction. -/
theorem extract_rewrites_only_spine_witness :
    ∃ (ws : List Wrapper) (t : String) (P : Properties) (cb : Node)
      (rest rest' : List Node),
      (.element "li" [] [cbChecked, .text "hi"] : Node) =
        wrap ws (.element t P (cb :: rest)) ∧
      isCheckboxInput cb = true ∧
      true = checkedOf cb ∧
      dropCheckboxTail rest = some rest' ∧
      (.element "li" [] [.text "hi"] : Node) =
        wrap ws (.element t P rest') :=
  (extract_rewrites_only_spine phrSample
    (.element "li" [] [cbChecked, .text "hi"]) (some true)
    (.element "li" [] [.text "hi"]) rfl).2 true rfl

/-- C9: the `li` handler extracts the leading checkbox from the input,
classifies spread on the resulting clone, converts the clone's children
through the external conversion capability, assembles
`{type := "listItem", spread, checked, children}`, invokes the provenance
patch exactly once with the clone as source and the result as target (the
event log is the singleton `[(clone, result)]`), and returns the result. -/
theorem li_steps :
    ∀ (phr : Node → Bool) {M : Type} (convert : List Node → List M)
      (n : Node) (c : Option Bool) (clone : Node),
      extractLeadingCheckbox phr n = some (c, clone) →
      li phr convert n =
        some
          (⟨"listItem", spreadout phr clone, c, convert (childrenOf clone)⟩,
            [(clone,
              ⟨"listItem", spreadout phr clone, c,
                convert (childrenOf clone)⟩)]) := by
  intro phr M convert n c clone h
  simp [li, h]

/-- Witness for C9: the handler run on a plain item with the identity
conversion capability. -/
theorem li_steps_witness :
    li phrSample (fun l => l) (.element "li" [] [.text "hi"]) =
      some (⟨"listItem", false, none, [.text "hi"]⟩,
        [(.element "li" [] [.text "hi"],
          ⟨"listItem", false, none, [.text "hi"]⟩)]) :=
  li_steps phrSample (fun l => l) (.element "li" [] [.text "hi"]) none
    (.element "li" [] [.text "hi"]) rfl

/-- C10: whenever `extract` returns a non-null `checked`, the returned
clone is a newly built element, not the input: in the embedding's value
semantics the clone differs from the input as a value (the innermost spine
level lost its leading checkbox), so it cannot be the same object. -/
theorem extract_clone_ne_input :
    ∀ (phr : Node → Bool) (n : Node) (b : Bool) (clone : Node),
      extractLeadingCheckbox phr n = some (some b, clone) → clone ≠ n := by
  intro phr n b clone h heq
  cases hg : goNode phr n with
  | notFound =>
    simp only [extractLeadingCheckbox, hg, Option.some.injEq,
      Prod.mk.injEq] at h
    cases h.1
  | crash => simp [extractLeadingCheckbox, hg] at h
  | found b' cl =>
    simp only [extractLeadingCheckbox, hg, Option.some.injEq,
      Prod.mk.injEq] at h
    obtain ⟨ws, t, P, cb, rest, rest', h1, _, _, _, hdt, h2⟩ :=
      goNode_found_decomp phr n b' cl hg
    have hlen := dropCheckboxTail_length hdt
    rw [h.2] at h2
    rw [heq, h1] at h2
    have := wrap_left_injective ws _ _ h2
    injection this with _ _ hch
    rw [← hch] at hlen
    simp at hlen

/-- Witness for C10: a successful extraction whose clone differs from the
input. -/
theorem extract_clone_ne_input_witness :
    (.element "li" [] [.element "p" [] []] : Node) ≠
      .element "li" [] [cbChecked, .element "p" [] []] :=
  extract_clone_ne_input phrSample
    (.element "li" [] [cbChecked, .element "p" [] []]) true
    (.element "li" [] [.element "p" [] []]) rfl

end HastLi
